import Mathlib

/-!
Verification development for the amalgemate gem-repository aggregator.

The program aggregates dependency metadata from several prioritized upstream
RubyGems repositories.  The final variant of the code (the dependencies-API
source file together with main.go) consists of:

* `gemInfo` records decoded from upstream responses, with an `ident` method
  computing the canonical identity string;
* `mergeDependencies`, merging per-repository record lists in priority order
  with first-match-wins deduplication on the identity string;
* `depQuery`, fanning one query out to every configured repository
  concurrently, collecting results into a slot array indexed by configured
  priority, failing fast after the join, then merging and updating the
  directory cache;
* `updateGemDir` / `gemDir`, the directory cache mapping identity strings to
  the source repository, and the two HTTP handlers consuming all of this.

Go strings are modelled as `String`, URL values as the `String` the program
would format them to, the seen-map of the merge as a list of seen identity
strings, and the goroutine fan-out as a fold of per-task state transitions
over an arbitrary completion order (a permutation of the repository indexes).
-/

namespace Amalgemate

/-- Dependency edge, from `gemDepInfo`: a gem name and a version constraint. -/
structure GemDepInfo where
  name : String
  ver : String
  deriving DecidableEq

/-- Package record, from `gemInfo` in the final variant: the source repository
URL (modelled as the string the program formats it to), name, version,
platform, and the list of dependency edges. -/
structure GemInfo where
  repo : String
  name : String
  version : String
  platform : String
  deps : List GemDepInfo
  deriving DecidableEq

/-- Canonical identity string, from `gemInfo.ident`: `name-version`, with
`-platform` appended when the platform is not the default platform `ruby`. -/
def GemInfo.ident (g : GemInfo) : String :=
  let suffix := if g.platform ≠ "ruby" then "-" ++ g.platform else ""
  g.name ++ "-" ++ g.version ++ suffix

/-- One iteration of the inner loop of `mergeDependencies`: a record whose
identity is already in the seen set is skipped, otherwise it is marked seen
and appended to the merged output.  The Go `seen` map is modelled as the list
of identity strings inserted so far. -/
def mergeStep (acc : List String × List GemInfo) (dep : GemInfo) :
    List String × List GemInfo :=
  if dep.ident ∈ acc.1 then acc else (dep.ident :: acc.1, acc.2 ++ [dep])

/-- `mergeDependencies`: merge the per-repository record lists in priority
order (outer loop), deduplicating on the identity string (inner loop). -/
def mergeDependencies (deps : List (List GemInfo)) : List GemInfo :=
  (deps.foldl (fun acc rdeps => rdeps.foldl mergeStep acc) ([], [])).2

/-- The records of one list whose identity is not in `seen` and did not occur
earlier in the same list, in their original relative order.  Derived
characterisation device for the merge loop. -/
def dedupByIdent (seen : List String) : List GemInfo → List GemInfo
  | [] => []
  | d :: rest =>
    if d.ident ∈ seen then dedupByIdent seen rest
    else d :: dedupByIdent (d.ident :: seen) rest

/-- The seen set after the inner merge loop has scanned one record list. -/
def seenAfter (seen : List String) : List GemInfo → List String
  | [] => seen
  | d :: rest =>
    if d.ident ∈ seen then seenAfter seen rest
    else seenAfter (d.ident :: seen) rest

/-- The seen set after the outer merge loop has scanned a list of lists. -/
def seenAfterAll (seen : List String) : List (List GemInfo) → List String
  | [] => seen
  | l :: ls => seenAfterAll (seenAfter seen l) ls

/-- Specification-level description of the merge output: for each priority
index in order, the records of that list whose identity has not occurred
earlier (in an earlier list, or earlier in the same list), each group in its
original relative order. -/
def specMergeOrder (seen : List String) : List (List GemInfo) → List GemInfo
  | [] => []
  | l :: ls => dedupByIdent seen l ++ specMergeOrder (seenAfter seen l) ls

theorem foldl_mergeStep (l : List GemInfo) : ∀ seen merged,
    l.foldl mergeStep (seen, merged) =
      (seenAfter seen l, merged ++ dedupByIdent seen l) := by
  induction l with
  | nil => intro seen merged; simp [seenAfter, dedupByIdent]
  | cons d rest ih =>
    intro seen merged
    by_cases h : d.ident ∈ seen
    · simp [List.foldl_cons, mergeStep, h, seenAfter, dedupByIdent, ih]
    · simp [List.foldl_cons, mergeStep, h, seenAfter, dedupByIdent, ih]

theorem foldl_merge_outer (ls : List (List GemInfo)) : ∀ seen merged,
    ls.foldl (fun acc rdeps => rdeps.foldl mergeStep acc) (seen, merged) =
      (seenAfterAll seen ls, merged ++ specMergeOrder seen ls) := by
  induction ls with
  | nil => intro seen merged; simp [seenAfterAll, specMergeOrder]
  | cons l ls ih =>
    intro seen merged
    simp only [List.foldl_cons, foldl_mergeStep, seenAfterAll, specMergeOrder, ih,
      List.append_assoc]

theorem mergeDependencies_eq_spec (ls : List (List GemInfo)) :
    mergeDependencies ls = specMergeOrder [] ls := by
  simp [mergeDependencies, foldl_merge_outer]

theorem dedupByIdent_append (l l₂ : List GemInfo) : ∀ seen,
    dedupByIdent seen (l ++ l₂) =
      dedupByIdent seen l ++ dedupByIdent (seenAfter seen l) l₂ := by
  induction l with
  | nil => intro seen; simp [dedupByIdent, seenAfter]
  | cons d rest ih =>
    intro seen
    by_cases h : d.ident ∈ seen <;>
      simp [dedupByIdent, seenAfter, h, ih]

theorem specMergeOrder_eq_flatten (ls : List (List GemInfo)) : ∀ seen,
    specMergeOrder seen ls = dedupByIdent seen ls.flatten := by
  induction ls with
  | nil => intro seen; simp [specMergeOrder, dedupByIdent]
  | cons l ls ih =>
    intro seen
    simp [specMergeOrder, List.flatten_cons, dedupByIdent_append, ih]

theorem mergeDependencies_eq_dedup (ls : List (List GemInfo)) :
    mergeDependencies ls = dedupByIdent [] ls.flatten := by
  rw [mergeDependencies_eq_spec, specMergeOrder_eq_flatten]

theorem filter_dedupByIdent (l : List GemInfo) (s : String) : ∀ seen,
    (dedupByIdent seen l).filter (fun r => r.ident == s) =
      if s ∈ seen then [] else (l.filter (fun r => r.ident == s)).take 1 := by
  induction l with
  | nil => intro seen; simp [dedupByIdent]
  | cons d rest ih =>
    intro seen
    by_cases hs : s ∈ seen
    · by_cases hd : d.ident ∈ seen
      · simp only [dedupByIdent, if_pos hd, ih, if_pos hs]
      · have hne : (d.ident == s) = false := by
          simp only [beq_eq_false_iff_ne]
          intro h; exact hd (h ▸ hs)
        simp only [dedupByIdent, if_neg hd, List.filter_cons, hne, ih,
          if_pos (List.mem_cons_of_mem _ hs), Bool.false_eq_true, if_false]
        rw [if_pos hs]
    · by_cases hd : d.ident ∈ seen
      · have hne : (d.ident == s) = false := by
          simp only [beq_eq_false_iff_ne]
          intro h; exact hs (h ▸ hd)
        simp only [dedupByIdent, if_pos hd, ih, if_neg hs, List.filter_cons, hne,
          Bool.false_eq_true, if_false]
      · by_cases heq : d.ident = s
        · have hbeq : (d.ident == s) = true := beq_iff_eq.mpr heq
          have hmem : s ∈ d.ident :: seen := heq ▸ List.mem_cons_self _ _
          simp only [dedupByIdent, if_neg hd, List.filter_cons, hbeq, if_pos,
            ih, if_pos hmem, if_neg hs, List.take_succ_cons, List.take_zero]
        · have hbeq : (d.ident == s) = false := by
            simp only [beq_eq_false_iff_ne]; exact heq
          have hmem : s ∉ d.ident :: seen := by
            intro h
            rcases List.mem_cons.mp h with h | h
            · exact heq h.symm
            · exact hs h
          simp only [dedupByIdent, if_neg hd, List.filter_cons, hbeq,
            Bool.false_eq_true, if_false, ih, if_neg hmem, if_neg hs]

theorem dedupByIdent_nodup (l : List GemInfo) : ∀ seen,
    (∀ x ∈ dedupByIdent seen l, x.ident ∉ seen) ∧
      ((dedupByIdent seen l).map GemInfo.ident).Nodup := by
  induction l with
  | nil => intro seen; simp [dedupByIdent]
  | cons d rest ih =>
    intro seen
    by_cases hd : d.ident ∈ seen
    · simpa only [dedupByIdent, if_pos hd] using ih seen
    · obtain ⟨ihmem, ihnodup⟩ := ih (d.ident :: seen)
      constructor
      · intro x hx
        simp only [dedupByIdent, if_neg hd, List.mem_cons] at hx
        rcases hx with rfl | hx
        · exact hd
        · intro hxs
          exact ihmem x hx (List.mem_cons_of_mem _ hxs)
      · simp only [dedupByIdent, if_neg hd, List.map_cons, List.nodup_cons]
        refine ⟨?_, ihnodup⟩
        intro hmem
        rcases List.mem_map.mp hmem with ⟨x, hx, hxi⟩
        exact ihmem x hx (hxi ▸ List.mem_cons_self _ _)

theorem dedupByIdent_of_nodup (l : List GemInfo) : ∀ seen,
    (l.map GemInfo.ident).Nodup → (∀ x ∈ l, x.ident ∉ seen) →
      dedupByIdent seen l = l := by
  induction l with
  | nil => intro seen _ _; simp [dedupByIdent]
  | cons d rest ih =>
    intro seen hnodup hdisj
    have hd : d.ident ∉ seen := hdisj d (List.mem_cons_self _ _)
    simp only [List.map_cons, List.nodup_cons] at hnodup
    rw [dedupByIdent, if_neg hd]
    congr 1
    refine ih _ hnodup.2 ?_
    intro x hx hxmem
    rcases List.mem_cons.mp hxmem with h | h
    · exact hnodup.1 (h ▸ List.mem_map_of_mem GemInfo.ident hx)
    · exact hdisj x (List.mem_cons_of_mem _ hx) h

/-- The directory cache `gemDir`: a mapping from identity string to the
repository URL (modelled as a string) that supplied the record.  The Go map
is modelled as a total function into `Option`. -/
def GemDir : Type := String → Option String

/-- The key computed inline by `updateGemDir` in main.go: `name-version`,
with `-platform` appended when the platform is not `ruby`. -/
def updateKey (dep : GemInfo) : String :=
  let suffix := if dep.platform ≠ "ruby" then "-" ++ dep.platform else ""
  dep.name ++ "-" ++ dep.version ++ suffix

/-- `updateGemDir`: for each record in the input, set the cache entry for its
identity key to the repository of the record, in input order. -/
def updateGemDir (dir : GemDir) (deps : List GemInfo) : GemDir :=
  deps.foldl (fun d dep => fun k => if k = updateKey dep then some dep.repo else d k) dir

/-- The per-repository outcome fed into the aggregator: either the decoded
record list or the error of that invocation (transport or decode failure,
modelled as its message string). -/
def RepoResult : Type := Except String (List GemInfo)

/-- The record list a slot ends up holding: the decoded list on success, and
the untouched nil slot (empty list) on failure. -/
def slotOf : RepoResult → List GemInfo
  | Except.ok deps => deps
  | Except.error _ => []

/-- The mutable state shared by the per-repository goroutines of `depQuery`:
the slot array `all` (one slot per configured repository, initially nil) and
the shared first-error variable `repoErr`. -/
structure ConcState where
  slots : List (List GemInfo)
  repoErr : Option String
  deriving DecidableEq

/-- The critical section of one goroutine of `depQuery`, for repository index
`i`: on failure record the error only if no error is recorded yet, on
success store the decoded list into slot `i`. -/
def runTask (results : List RepoResult) (st : ConcState) (i : Nat) : ConcState :=
  match results[i]? with
  | none => st
  | some (Except.error e) =>
    { st with repoErr := match st.repoErr with
        | none => some e
        | some e0 => some e0 }
  | some (Except.ok deps) => { st with slots := st.slots.set i deps }

/-- The join of the concurrent fan-out of `depQuery`: starting from the nil
slot array and no recorded error, the goroutine critical sections execute
one after another in completion order `order` (the lock serialises them). -/
def runConc (results : List RepoResult) (order : List Nat) : ConcState :=
  order.foldl (runTask results) ⟨List.replicate results.length [], none⟩

/-- The concurrent `depQuery` of the final variant, after the responses of
the upstream invocations are fixed: it returns the Go result pair (record
list or nil, error or nil) together with the directory cache after the call.
`results` holds the outcome of `loadDependencies` for each configured
repository in priority order, and `order` is the completion order of the
goroutines. -/
def depQueryConc (cache : GemDir) (results : List RepoResult) (order : List Nat) :
    (Option (List GemInfo) × Option String) × GemDir :=
  let st := runConc results order
  match st.repoErr with
  | some e => ((none, some e), cache)
  | none =>
    let deps := mergeDependencies st.slots
    ((some deps, none), updateGemDir cache deps)

/-- The loop of the sequential `depQuery` of main.go: query each repository
in priority order, aborting on the first error. -/
def collectSeq : List RepoResult → Except String (List (List GemInfo))
  | [] => Except.ok []
  | r :: rest =>
    match r with
    | Except.error e => Except.error e
    | Except.ok deps =>
      match collectSeq rest with
      | Except.error e => Except.error e
      | Except.ok all => Except.ok (deps :: all)

/-- The sequential reference `depQuery` of main.go: query each repository in
priority order, then merge and update the directory cache. -/
def depQuerySeq (cache : GemDir) (results : List RepoResult) :
    (Option (List GemInfo) × Option String) × GemDir :=
  match collectSeq results with
  | Except.error e => ((none, some e), cache)
  | Except.ok all =>
    let deps := mergeDependencies all
    ((some deps, none), updateGemDir cache deps)

/-- The error of the first failed invocation in completion order: the value
the shared `repoErr` variable holds after the join. -/
def firstObservedError (results : List RepoResult) : List Nat → Option String
  | [] => none
  | i :: rest =>
    match results[i]? with
    | some (Except.error e) => some e
    | _ => firstObservedError results rest

/-- `loadDependencies` of the final variant, after the upstream interaction
is fixed: `response` is the outcome of the outbound request and typed decode
(error on transport or decode failure, otherwise the decoded records); every
decoded record is tagged with the queried repository before being returned. -/
def loadDependencies (repo : String) (response : RepoResult) : RepoResult :=
  match response with
  | Except.error e => Except.error e
  | Except.ok results => Except.ok (results.map fun g => { g with repo := repo })

/-- Go strings.TrimSuffix: remove one trailing occurrence of `suf` from `s`
when present, otherwise return `s` unchanged. -/
def trimSuffix (s suf : String) : String :=
  if suf.data.isSuffixOf s.data then
    String.mk (s.data.take (s.data.length - suf.data.length))
  else s

/-- The observable part of a net/http response writer: the status line and
the Location header actually sent.  Headers written after the status line
has been sent never reach the wire. -/
structure RespWriter where
  status : Option Nat
  location : Option String
  deriving DecidableEq

/-- net/http WriteHeader: the first call fixes the status, later calls are
superfluous no-ops. -/
def writeHeader (w : RespWriter) (code : Nat) : RespWriter :=
  match w.status with
  | none => { w with status := some code }
  | some _ => w

/-- Setting the Location header: effective only while the status line has
not been sent yet. -/
def setLocation (w : RespWriter) (loc : String) : RespWriter :=
  match w.status with
  | none => { w with location := some loc }
  | some _ => w

/-- net/http Redirect: set the Location header, then write the status. -/
def httpRedirect (w : RespWriter) (url : String) (code : Nat) : RespWriter :=
  writeHeader (setLocation w url) code

/-- How fmt renders the repository value of a cache lookup: the stored URL
string when the identity was found, and the fmt rendering of the nil URL
pointer when it was not. -/
def repoString : Option String → String
  | some r => r
  | none => "<nil>"

/-- The `/gems/` handler of main.go, on the path remainder `gem` after the
route prefix: trim the `.gem` extension, look the identity up in the
directory cache, write 404 when it is absent, and (the source misses a
return here) fall through to the redirect to `<repo>gems/<gem>`. -/
def gemsHandler (dir : GemDir) (gem : String) : RespWriter :=
  let lookup := dir (trimSuffix gem ".gem")
  let w0 : RespWriter := { status := none, location := none }
  let w1 := if lookup.isSome then w0 else writeHeader w0 404
  httpRedirect w1 (repoString lookup ++ "gems/" ++ gem) 301

/-- The observable outcome of the dependencies handler: no body written, a
500 server error carrying the aggregation error, or the encoded record
list (the wire codec is an opaque boundary, so the body is modelled by the
record list it encodes). -/
inductive DepResponse where
  | noBody : DepResponse
  | serverError : String → DepResponse
  | body : List GemInfo → DepResponse
  deriving DecidableEq

/-- The `/api/v1/dependencies` handler of main.go: an empty `gems` query
parameter returns immediately with nothing written; otherwise the aggregate
query runs (its upstream outcomes `results` and goroutine completion order
`order` are the remaining inputs), a failure is reported as a 500 error, and
a success is encoded as the response body. -/
def dependenciesHandler (cache : GemDir) (gemsParam : String)
    (results : List RepoResult) (order : List Nat) : DepResponse × GemDir :=
  if gemsParam = "" then (DepResponse.noBody, cache)
  else
    match depQueryConc cache results order with
    | ((_, some e), cache2) => (DepResponse.serverError e, cache2)
    | ((some deps, none), cache2) => (DepResponse.body deps, cache2)
    | ((none, none), cache2) => (DepResponse.noBody, cache2)

theorem lt_length_of_getElem? {α : Type} {l : List α} {n : Nat} {a : α}
    (h : l[n]? = some a) : n < l.length := by
  by_contra hc
  rw [List.getElem?_eq_none_iff.mpr (Nat.le_of_not_lt hc)] at h
  exact Option.noConfusion h

theorem runTask_slots_length (results : List RepoResult) (st : ConcState) (i : Nat) :
    (runTask results st i).slots.length = st.slots.length := by
  unfold runTask
  cases hri : results[i]? with
  | none => rfl
  | some r => cases r with
    | error e => rfl
    | ok deps => simp [List.length_set]

theorem foldl_runTask_getElem? (results : List RepoResult)
    (hok : ∀ r ∈ results, ∃ l, r = Except.ok l) (order : List Nat) :
    ∀ (st : ConcState), st.slots.length = results.length → ∀ j,
      (order.foldl (runTask results) st).slots[j]? =
        if j ∈ order ∧ j < results.length then (results.map slotOf)[j]?
        else st.slots[j]? := by
  induction order with
  | nil =>
    intro st hlen j
    simp
  | cons i rest ih =>
    intro st hlen j
    rw [List.foldl_cons]
    have hlen2 : (runTask results st i).slots.length = results.length := by
      rw [runTask_slots_length, hlen]
    rw [ih _ hlen2 j]
    by_cases hjr : j ∈ rest ∧ j < results.length
    · rw [if_pos hjr, if_pos ⟨List.mem_cons_of_mem _ hjr.1, hjr.2⟩]
    · rw [if_neg hjr]
      unfold runTask
      cases hri : results[i]? with
      | none =>
        have hilen : results.length ≤ i := List.getElem?_eq_none_iff.mp hri
        rw [if_neg]
        intro ⟨hmem, hjlen⟩
        rcases List.mem_cons.mp hmem with rfl | hmem2
        · exact Nat.lt_irrefl _ (Nat.lt_of_lt_of_le hjlen hilen)
        · exact hjr ⟨hmem2, hjlen⟩
      | some r =>
        obtain ⟨deps, rfl⟩ := hok r (List.getElem?_mem hri)
        have hilen : i < results.length := lt_length_of_getElem? hri
        by_cases hij : j = i
        · subst hij
          have hset : (st.slots.set j deps)[j]? = some deps :=
            List.getElem?_set_self (by rw [hlen]; exact hilen)
          rw [if_pos ⟨List.mem_cons_self _ _, hilen⟩]
          simp only [hset, List.getElem?_map, hri, Option.map_some']
          rfl
        · have hset : (st.slots.set i deps)[j]? = st.slots[j]? :=
            List.getElem?_set_ne (fun h => hij h.symm)
          simp only [hset]
          rw [if_neg]
          intro ⟨hmem, hjlen⟩
          rcases List.mem_cons.mp hmem with rfl | hmem2
          · exact hij rfl
          · exact hjr ⟨hmem2, hjlen⟩

theorem runConc_slots (results : List RepoResult) (order : List Nat)
    (hperm : order.Perm (List.range results.length))
    (hok : ∀ r ∈ results, ∃ l, r = Except.ok l) :
    (runConc results order).slots = results.map slotOf := by
  apply List.ext_getElem?
  intro j
  rw [runConc, foldl_runTask_getElem? results hok order _ (by simp) j]
  by_cases hj : j < results.length
  · rw [if_pos ⟨hperm.mem_iff.mpr (List.mem_range.mpr hj), hj⟩]
  · rw [if_neg (fun h => hj h.2)]
    rw [List.getElem?_eq_none_iff.mpr (by simpa using Nat.le_of_not_lt hj),
      List.getElem?_eq_none_iff.mpr (by simpa using Nat.le_of_not_lt hj)]

theorem foldl_runTask_repoErr (results : List RepoResult) (order : List Nat) :
    ∀ st : ConcState,
      (order.foldl (runTask results) st).repoErr =
        match st.repoErr with
        | some e => some e
        | none => firstObservedError results order := by
  induction order with
  | nil =>
    intro st
    cases h : st.repoErr <;> simp [firstObservedError, h]
  | cons i rest ih =>
    intro st
    rw [List.foldl_cons, ih]
    cases hri : results[i]? with
    | none => cases h : st.repoErr <;> simp [runTask, hri, h, firstObservedError]
    | some r => cases r with
      | error e => cases h : st.repoErr <;> simp [runTask, hri, h, firstObservedError]
      | ok deps => cases h : st.repoErr <;> simp [runTask, hri, h, firstObservedError]

theorem collectSeq_ok (results : List RepoResult)
    (hok : ∀ r ∈ results, ∃ l, r = Except.ok l) :
    collectSeq results = Except.ok (results.map slotOf) := by
  induction results with
  | nil => simp [collectSeq]
  | cons r rest ih =>
    obtain ⟨l, rfl⟩ := hok r (List.mem_cons_self _ _)
    rw [collectSeq, ih (fun x hx => hok x (List.mem_cons_of_mem _ hx))]
    simp [slotOf]

theorem firstObservedError_isSome (results : List RepoResult) (i : Nat) (e0 : String)
    (hi : results[i]? = some (Except.error e0)) :
    ∀ order : List Nat, i ∈ order → ∃ e, firstObservedError results order = some e := by
  intro order
  induction order with
  | nil => intro h; exact absurd h (List.not_mem_nil i)
  | cons j rest ih =>
    intro hmem
    cases hrj : results[j]? with
    | none =>
      rcases List.mem_cons.mp hmem with rfl | h
      · rw [hi] at hrj; exact Option.noConfusion hrj
      · obtain ⟨e, he⟩ := ih h
        exact ⟨e, by simp [firstObservedError, hrj, he]⟩
    | some r => cases r with
      | error e => exact ⟨e, by simp [firstObservedError, hrj]⟩
      | ok deps =>
        rcases List.mem_cons.mp hmem with rfl | h
        · rw [hi] at hrj
          exact Except.noConfusion (Option.some.inj hrj)
        · obtain ⟨e, he⟩ := ih h
          exact ⟨e, by simp [firstObservedError, hrj, he]⟩

theorem updateGemDir_lookup (deps : List GemInfo) : ∀ (dir : GemDir) (k : String),
    updateGemDir dir deps k =
      match deps.reverse.find? (fun d => updateKey d == k) with
      | some d => some d.repo
      | none => dir k := by
  induction deps with
  | nil => intro dir k; simp [updateGemDir, List.find?]
  | cons d rest ih =>
    intro dir k
    have hstep : updateGemDir dir (d :: rest) =
        updateGemDir (fun k2 => if k2 = updateKey d then some d.repo else dir k2) rest := rfl
    rw [hstep, ih, List.reverse_cons, List.find?_append]
    cases hf : rest.reverse.find? (fun d2 => updateKey d2 == k) with
    | some x => simp [Option.or]
    | none =>
      by_cases hk : updateKey d = k
      · have hbeq : (updateKey d == k) = true := beq_iff_eq.mpr hk
        simp [Option.none_or, List.find?, hbeq, if_pos hk.symm]
      · have hbeq : (updateKey d == k) = false := by
          simp only [beq_eq_false_iff_ne]; exact hk
        have hne : ¬ (k = updateKey d) := fun h => hk h.symm
        simp [Option.none_or, List.find?, hbeq, if_neg hne]

theorem updateGemDir_isSome (dir : GemDir) (deps : List GemInfo) (k : String) :
    (updateGemDir dir deps k).isSome =
      ((dir k).isSome || deps.any fun d => updateKey d == k) := by
  rw [updateGemDir_lookup]
  cases hf : deps.reverse.find? (fun d => updateKey d == k) with
  | some d =>
    have hp := List.find?_some hf
    have hmem := List.mem_reverse.mp (List.mem_of_find?_eq_some hf)
    have hany : deps.any (fun d => updateKey d == k) = true :=
      List.any_eq_true.mpr ⟨d, hmem, hp⟩
    simp [hany]
  | none =>
    have hall := List.find?_eq_none.mp hf
    have hany : deps.any (fun d => updateKey d == k) = false :=
      List.any_eq_false.mpr fun x hx => hall x (List.mem_reverse.mpr hx)
    simp [hany]

theorem updateGemDir_nil (dir : GemDir) : updateGemDir dir [] = dir := rfl

theorem trimSuffix_gem (s : String) : trimSuffix (s ++ ".gem") ".gem" = s := by
  have hdata : (s ++ ".gem").data = s.data ++ ".gem".data := String.data_append s ".gem"
  have hsuf : (".gem".data.isSuffixOf (s ++ ".gem").data) = true := by
    rw [hdata, List.isSuffixOf_iff_suffix]
    exact List.suffix_append _ _
  unfold trimSuffix
  rw [if_pos hsuf, hdata]
  have hlen : (s.data ++ ".gem".data).length - ".gem".data.length = s.data.length := by
    rw [List.length_append]
    omega
  rw [hlen, List.take_left]

theorem firstObservedError_eq_none (results : List RepoResult)
    (hok : ∀ r ∈ results, ∃ l, r = Except.ok l) :
    ∀ order : List Nat, firstObservedError results order = none := by
  intro order
  induction order with
  | nil => rfl
  | cons i rest ih =>
    cases hri : results[i]? with
    | none => simp [firstObservedError, hri, ih]
    | some r =>
      obtain ⟨l, rfl⟩ := hok r (List.getElem?_mem hri)
      simp [firstObservedError, hri, ih]

/-- C1: the merged output of an aggregate query is fully determined by the
configured repository order and each repository record list, never by the
completion order of the concurrent invocations: for every completion order
(a permutation of the repository indexes) in which every invocation
succeeded, the concurrent depQuery, collecting results into a slot array
indexed by configured priority, returns exactly the output (and cache
update) of the sequential reference that queries each repository in
priority order and then merges. -/
theorem depQuery_completion_order_independent
    (cache : GemDir) (results : List RepoResult) (order : List Nat)
    (hperm : order.Perm (List.range results.length))
    (hok : ∀ r ∈ results, ∃ l, r = Except.ok l) :
    depQueryConc cache results order = depQuerySeq cache results := by
  have hslots : (runConc results order).slots = results.map slotOf :=
    runConc_slots results order hperm hok
  have herr : (runConc results order).repoErr = none := by
    rw [runConc, foldl_runTask_repoErr]
    simpa using firstObservedError_eq_none results hok order
  simp only [depQueryConc, depQuerySeq, herr, hslots, collectSeq_ok results hok]

/-- Witness for C1: a two-repository run whose second goroutine finishes
first gives the same result as the sequential reference. -/
theorem depQuery_completion_order_independent_witness :
    depQueryConc (fun _ => none)
        [Except.ok [⟨"http://a/", "foo", "1.0", "ruby", []⟩],
         Except.ok [⟨"http://b/", "bar", "2.0", "ruby", []⟩]] [1, 0] =
      depQuerySeq (fun _ => none)
        [Except.ok [⟨"http://a/", "foo", "1.0", "ruby", []⟩],
         Except.ok [⟨"http://b/", "bar", "2.0", "ruby", []⟩]] :=
  depQuery_completion_order_independent _ _ _ (by decide)
    (by
      intro r hr
      simp only [List.mem_cons, List.not_mem_nil, or_false] at hr
      rcases hr with rfl | rfl
      · exact ⟨_, rfl⟩
      · exact ⟨_, rfl⟩)

/-- Counterexample to C2 as stated: the identity `x-1` occurs in the lists
at priority indexes 1 and 2 (so i = 1 < j = 2 satisfies the premise), yet
the single merged record for that identity is the record of index 0, not
the record of index 1. -/
theorem merge_dedup_counterexample :
    GemInfo.ident ⟨"B", "x", "1", "ruby", []⟩ = GemInfo.ident ⟨"C", "x", "1", "ruby", []⟩ ∧
    mergeDependencies
        [[⟨"A", "x", "1", "ruby", []⟩], [⟨"B", "x", "1", "ruby", []⟩],
         [⟨"C", "x", "1", "ruby", []⟩]] =
      [⟨"A", "x", "1", "ruby", []⟩] ∧
    (⟨"A", "x", "1", "ruby", []⟩ : GemInfo) ≠ ⟨"B", "x", "1", "ruby", []⟩ := by
  decide

/-- C2 amended: when some identity occurs both at priority index i and at
priority index j with i < j, the merged output contains exactly one record
with that identity, namely the first record bearing it in the priority-order
concatenation of the lists (i.e. the record from the lowest-priority-index
occurrence, which is at most i). -/
theorem merge_dedup_first_occurrence (ls : List (List GemInfo)) (s : String) (i j : Nat)
    (hij : i < j) (hj : j < ls.length)
    (hsi : s ∈ (ls.getD i []).map GemInfo.ident)
    (_hsj : s ∈ (ls.getD j []).map GemInfo.ident) :
    (mergeDependencies ls).filter (fun r => r.ident == s) =
      (ls.flatten.filter (fun r => r.ident == s)).take 1 ∧
    ((mergeDependencies ls).filter (fun r => r.ident == s)).length = 1 := by
  have hchar : (mergeDependencies ls).filter (fun r => r.ident == s) =
      (ls.flatten.filter (fun r => r.ident == s)).take 1 := by
    rw [mergeDependencies_eq_dedup, filter_dedupByIdent]
    simp
  refine ⟨hchar, ?_⟩
  have hi : i < ls.length := Nat.lt_trans hij hj
  obtain ⟨r, hr, hri⟩ := List.mem_map.mp hsi
  have hmem : r ∈ ls.flatten := by
    rw [List.mem_flatten]
    refine ⟨ls.getD i [], ?_, hr⟩
    rw [List.getD_eq_getElem ls [] hi]
    exact List.getElem_mem hi
  have hfil : r ∈ ls.flatten.filter (fun r => r.ident == s) :=
    List.mem_filter.mpr ⟨hmem, beq_iff_eq.mpr hri⟩
  have hpos : 0 < (ls.flatten.filter (fun r => r.ident == s)).length :=
    List.length_pos.mpr (List.ne_nil_of_mem hfil)
  rw [hchar, List.length_take]
  omega

/-- Witness for C2 amended, at the counterexample input: identity `x-1`
occurs at indexes 1 and 2, and the merged output carries exactly one record
with it, the head of the flattened priority order. -/
theorem merge_dedup_first_occurrence_witness :
    (mergeDependencies
        [[⟨"A", "x", "1", "ruby", []⟩], [⟨"B", "x", "1", "ruby", []⟩],
         [⟨"C", "x", "1", "ruby", []⟩]]).filter (fun r => r.ident == "x-1") =
      (([[⟨"A", "x", "1", "ruby", []⟩], [⟨"B", "x", "1", "ruby", []⟩],
         [⟨"C", "x", "1", "ruby", []⟩]] : List (List GemInfo)).flatten.filter
          (fun r => r.ident == "x-1")).take 1 ∧
    ((mergeDependencies
        [[⟨"A", "x", "1", "ruby", []⟩], [⟨"B", "x", "1", "ruby", []⟩],
         [⟨"C", "x", "1", "ruby", []⟩]]).filter (fun r => r.ident == "x-1")).length = 1 :=
  merge_dedup_first_occurrence _ "x-1" 1 2 (by decide) (by decide) (by decide) (by decide)

/-- Counterexample to C3 as stated: when the priority-0 list itself repeats
an identity, the merge drops the repetition, so the output does not start
with all records of the priority-0 list in their original relative order. -/
theorem merge_order_counterexample :
    mergeDependencies [[⟨"A", "x", "1", "ruby", []⟩, ⟨"A", "x", "1", "ruby", []⟩]] =
      [⟨"A", "x", "1", "ruby", []⟩] ∧
    [(⟨"A", "x", "1", "ruby", []⟩ : GemInfo)] ≠
      [⟨"A", "x", "1", "ruby", []⟩, ⟨"A", "x", "1", "ruby", []⟩] := by
  decide

/-- C3 amended: the merge output is, for each priority index in order, the
records of that list whose identity has not occurred earlier (in an earlier
list or earlier in the same list), each group in its original relative
order. -/
theorem merge_order_novel_concat (ls : List (List GemInfo)) :
    mergeDependencies ls = specMergeOrder [] ls :=
  mergeDependencies_eq_spec ls

/-- C4: if any per-repository invocation fails, depQuery returns the first
observed failure (the error of the first failed goroutine in completion
order) together with a nil record list, and the directory cache is left
completely unchanged, even when every other invocation succeeded. -/
theorem depQuery_failfast (cache : GemDir) (results : List RepoResult) (order : List Nat)
    (i : Nat) (e0 : String)
    (hperm : order.Perm (List.range results.length))
    (hi : results[i]? = some (Except.error e0)) :
    ∃ e, firstObservedError results order = some e ∧
      depQueryConc cache results order = ((none, some e), cache) := by
  have hilen : i < results.length := lt_length_of_getElem? hi
  have hmem : i ∈ order := hperm.mem_iff.mpr (List.mem_range.mpr hilen)
  obtain ⟨e, he⟩ := firstObservedError_isSome results i e0 hi order hmem
  refine ⟨e, he, ?_⟩
  have herr : (runConc results order).repoErr = some e := by
    rw [runConc, foldl_runTask_repoErr]
    simpa using he
  simp only [depQueryConc, herr]

/-- Witness for C4: one failing and one succeeding repository; the call
returns the failure, a nil record list, and the untouched cache. -/
theorem depQuery_failfast_witness :
    ∃ e, firstObservedError
          [Except.ok [⟨"http://a/", "foo", "1.0", "ruby", []⟩], Except.error "boom"]
          [1, 0] = some e ∧
      depQueryConc (fun _ => none)
          [Except.ok [⟨"http://a/", "foo", "1.0", "ruby", []⟩], Except.error "boom"]
          [1, 0] =
        ((none, some e), fun _ => none) :=
  depQuery_failfast _ _ _ 1 "boom" (by decide) rfl

/-- C5: updateGemDir sets the cache entry of every input record to the
repository of that record, unconditionally overwriting any prior mapping (the
entry after the call is the repository of the last input record bearing the
key, else the prior entry), the key set afterwards is exactly the old keys
plus the input keys, and an aggregate query never removes a key from the
cache. -/
theorem cache_update_overwrite_and_grow (dir : GemDir) (deps : List GemInfo)
    (k : String) (results : List RepoResult) (order : List Nat) :
    (updateGemDir dir deps k =
      match deps.reverse.find? (fun d => updateKey d == k) with
      | some d => some d.repo
      | none => dir k) ∧
    ((updateGemDir dir deps k).isSome =
      ((dir k).isSome || deps.any fun d => updateKey d == k)) ∧
    ((dir k).isSome ≤ ((depQueryConc dir results order).2 k).isSome) := by
  refine ⟨updateGemDir_lookup deps dir k, updateGemDir_isSome dir deps k, ?_⟩
  simp only [depQueryConc]
  cases herr : (runConc results order).repoErr with
  | some e => simp only [herr]; exact le_refl _
  | none =>
    simp only [herr]
    cases h : (dir k).isSome with
    | false => exact Bool.false_le _
    | true =>
      rw [updateGemDir_isSome, h]
      simp

/-- C6: for a request GET /gems/(identity).gem, when the identity is in the
directory cache the response is a 301 with Location pointing at the cached
repository gem path, and when it is absent the response status is 404 and no
Location header reaches the wire (the redirect written after the 404 status
line has no effect). -/
theorem gems_redirect_correct (dir : GemDir) (id : String) :
    (∀ repo, dir id = some repo →
      gemsHandler dir (id ++ ".gem") =
        { status := some 301, location := some (repo ++ "gems/" ++ (id ++ ".gem")) }) ∧
    (dir id = none →
      gemsHandler dir (id ++ ".gem") = { status := some 404, location := none }) := by
  constructor
  · intro repo hrepo
    simp only [gemsHandler, trimSuffix_gem, hrepo]
    rfl
  · intro hnone
    simp only [gemsHandler, trimSuffix_gem, hnone]
    rfl

/-- Witness for C6: with cache state mapping foo-1.0 to RepoA, the request
for foo-1.0.gem is a 301 to the RepoA gem path and the request for the
absent bar-1.0.gem is a 404 without a Location header. -/
theorem gems_redirect_correct_witness :
    gemsHandler (fun k => if k = "foo-1.0" then some "http://repoa/" else none)
        ("foo-1.0" ++ ".gem") =
      { status := some 301,
        location := some ("http://repoa/" ++ "gems/" ++ ("foo-1.0" ++ ".gem")) } ∧
    gemsHandler (fun k => if k = "foo-1.0" then some "http://repoa/" else none)
        ("bar-1.0" ++ ".gem") =
      { status := some 404, location := none } :=
  ⟨(gems_redirect_correct _ "foo-1.0").1 "http://repoa/" (by decide),
   (gems_redirect_correct _ "bar-1.0").2 (by decide)⟩

/-- Counterexample to C7 as stated: two records whose (name, version,
platform) tuples differ can share the canonical identity string (hyphens in
the fields make the encoding ambiguous), and the system then treats them as
the same package: the merge keeps only the first. -/
theorem ident_not_injective_counterexample :
    GemInfo.ident ⟨"R1", "a-b", "c", "ruby", []⟩ =
      GemInfo.ident ⟨"R2", "a", "b-c", "ruby", []⟩ ∧
    ¬((⟨"R1", "a-b", "c", "ruby", []⟩ : GemInfo).name = GemInfo.name ⟨"R2", "a", "b-c", "ruby", []⟩ ∧
      (⟨"R1", "a-b", "c", "ruby", []⟩ : GemInfo).version = GemInfo.version ⟨"R2", "a", "b-c", "ruby", []⟩ ∧
      (⟨"R1", "a-b", "c", "ruby", []⟩ : GemInfo).platform = GemInfo.platform ⟨"R2", "a", "b-c", "ruby", []⟩) ∧
    mergeDependencies [[⟨"R1", "a-b", "c", "ruby", []⟩], [⟨"R2", "a", "b-c", "ruby", []⟩]] =
      [⟨"R1", "a-b", "c", "ruby", []⟩] := by
  decide

/-- C7 amended: the same key formula (name-version, with -platform appended
when the platform is not ruby) is used by the cache update and by the merge
identity, equal (name, version, platform) tuples always give equal identity
strings, and records with equal identity strings are treated as the same
package by the merge; but the identity string is not injective, so distinct
tuples can also be identified (see the counterexample). -/
theorem ident_consistent (g g2 : GemInfo) :
    updateKey g = GemInfo.ident g ∧
    (g.name = g2.name → g.version = g2.version → g.platform = g2.platform →
      GemInfo.ident g = GemInfo.ident g2) ∧
    (GemInfo.ident g = GemInfo.ident g2 → mergeDependencies [[g], [g2]] = [g]) := by
  refine ⟨rfl, ?_, ?_⟩
  · intro h1 h2 h3
    unfold GemInfo.ident
    rw [h1, h2, h3]
  · intro h
    rw [mergeDependencies_eq_dedup]
    have hmem : GemInfo.ident g2 ∈ [GemInfo.ident g] := by
      rw [h]
      exact List.mem_singleton_self _
    simp [dedupByIdent, hmem]
    exact h.symm

/-- Witness for C7 amended: two records differing only in repository have
equal tuples, hence equal identity, and merge to the first record. -/
theorem ident_consistent_witness :
    updateKey ⟨"R", "n", "1.0", "ruby", []⟩ = GemInfo.ident ⟨"R", "n", "1.0", "ruby", []⟩ ∧
    GemInfo.ident ⟨"R", "n", "1.0", "ruby", []⟩ = GemInfo.ident ⟨"S", "n", "1.0", "ruby", []⟩ ∧
    mergeDependencies [[⟨"R", "n", "1.0", "ruby", []⟩], [⟨"S", "n", "1.0", "ruby", []⟩]] =
      [⟨"R", "n", "1.0", "ruby", []⟩] := by
  obtain ⟨h1, h2, h3⟩ :=
    ident_consistent ⟨"R", "n", "1.0", "ruby", []⟩ ⟨"S", "n", "1.0", "ruby", []⟩
  exact ⟨h1, h2 rfl rfl rfl, h3 (h2 rfl rfl rfl)⟩

/-- C8: an upstream response that decodes to no packages makes
loadDependencies return an empty record sequence and no error. -/
theorem loadDependencies_empty_ok (repo : String) :
    loadDependencies repo (Except.ok []) = Except.ok [] := rfl

/-- C9: the dependencies handler treats an empty gems parameter as a no-op:
nothing is written, the cache is untouched, and no aggregate query happens
(the result is independent of the upstream outcomes and completion order);
moreover an aggregate run in which every repository contributes no record
merges to the empty sequence, and updating the cache with no records leaves
it unchanged. -/
theorem empty_query_noop (cache : GemDir) (results : List RepoResult) (order : List Nat) :
    dependenciesHandler cache "" results order = (DepResponse.noBody, cache) ∧
    (∀ (results2 : List RepoResult) (order2 : List Nat),
      dependenciesHandler cache "" results order =
        dependenciesHandler cache "" results2 order2) ∧
    (∀ n : Nat, mergeDependencies (List.replicate n ([] : List GemInfo)) = []) ∧
    updateGemDir cache [] = cache := by
  refine ⟨rfl, fun _ _ => rfl, ?_, rfl⟩
  intro n
  rw [mergeDependencies_eq_dedup]
  have hflat : (List.replicate n ([] : List GemInfo)).flatten = [] := by
    induction n with
    | zero => rfl
    | succ m ih => simp [List.replicate, List.flatten_cons, ih]
  rw [hflat]
  rfl

/-- C10: the merge output never repeats an identity string, and the merge is
idempotent: merging its own output as a single priority slot returns that
output unchanged. -/
theorem merge_nodup_idempotent (ls : List (List GemInfo)) :
    ((mergeDependencies ls).map GemInfo.ident).Nodup ∧
    mergeDependencies [mergeDependencies ls] = mergeDependencies ls := by
  have hnodup : ((mergeDependencies ls).map GemInfo.ident).Nodup := by
    rw [mergeDependencies_eq_dedup]
    exact (dedupByIdent_nodup ls.flatten []).2
  refine ⟨hnodup, ?_⟩
  have h1 : mergeDependencies [mergeDependencies ls] =
      dedupByIdent [] (mergeDependencies ls) := by
    rw [mergeDependencies_eq_dedup]
    simp only [List.flatten_cons, List.flatten_nil, List.append_nil]
  rw [h1]
  exact dedupByIdent_of_nodup (mergeDependencies ls) [] hnodup
    (fun x _ => List.not_mem_nil _)

end Amalgemate
